import Mathlib

/-!
Shallow embedding of the Toposware winterfell proof-system core: the
assertion model (air/src/air/assertions/mod.rs), the quadratic and cubic
extension fields (math/src/field/extensions/quadratic.rs and cubic.rs)
and the trace polynomial table (prover/src/trace/poly_table.rs), with
proofs of the specification claims about them.

Machine integers (usize) are modelled as Nat: none of the embedded code
paths can overflow a 64-bit machine word on the inputs the claims range
over, and the Rust code would abort on overflow rather than wrap.
-/

namespace Winterfell

/-- Power-of-two test on naturals, modelling `usize::is_power_of_two`:
true exactly when the number equals 2 ^ k for some k. -/
def isPow2 (n : Nat) : Bool :=
  (List.range (n + 1)).any (fun k => n == 2 ^ k)

/-- Smallest power of two greater than or equal to n, modelling
`usize::next_power_of_two` (which maps 0 to 1). -/
def nextPow2 (n : Nat) : Nat := 2 ^ Nat.clog 2 n

/-- A power of two is positive. -/
theorem isPow2_pos {n : Nat} (h : isPow2 n = true) : 0 < n := by
  unfold isPow2 at h
  simp only [List.any_eq_true, List.mem_range, beq_iff_eq] at h
  obtain ⟨k, -, hk⟩ := h
  subst hk
  exact Nat.pos_pow_of_pos k (by omega)

/-- From src: validation errors raised by the assertion model
(declared in air/src/errors, used throughout assertions/mod.rs). -/
inductive AssertionError where
  | TraceWidthTooShort (register width : Nat)
  | TraceLengthNotPowerOfTwo (l : Nat)
  | TraceLengthTooShort (expected actual : Nat)
  | TraceLengthNotExact (expected actual : Nat)
  deriving DecidableEq

/-- From src: constant `NO_STRIDE` (sentinel stride of single assertions). -/
def NO_STRIDE : Nat := 0

/-- From src: constant `MIN_STRIDE_LENGTH`. -/
def MIN_STRIDE_LENGTH : Nat := 2

/-- From src: an `Assertion<B>` against an execution trace.  The value
type is kept abstract: the claims about assertions never compute with
the asserted field elements. -/
structure Assertion (V : Type) where
  register : Nat
  first_step : Nat
  stride : Nat
  values : List V
  deriving DecidableEq

namespace Assertion

variable {V : Type}

/-- From src: `Assertion::is_single`. -/
def is_single (a : Assertion V) : Bool := a.stride == NO_STRIDE

/-- From src: `Assertion::is_periodic`. -/
def is_periodic (a : Assertion V) : Bool :=
  a.stride != NO_STRIDE && a.values.length == 1

/-- From src: `Assertion::is_sequence`. -/
def is_sequence (a : Assertion V) : Bool := decide (1 < a.values.length)

/-- From src: `Assertion::overlaps_with`. -/
def overlaps_with (a b : Assertion V) : Bool :=
  if a.register ≠ b.register then false
  else if a.first_step = b.first_step then true
  else if a.stride = b.stride then false
  else if a.first_step < b.first_step then
    if a.is_single then false
    else if b.is_single ∨ a.stride < b.stride then
      decide ((b.first_step - a.first_step) % a.stride = 0)
    else false
  else
    if b.is_single then false
    else if a.is_single ∨ b.stride < a.stride then
      decide ((a.first_step - b.first_step) % b.stride = 0)
    else false

/-- The overlap rule for a same-register pair written the way claim C3
states it, for an earlier assertion `e` and a later assertion `l`
(first steps s < s1): disjoint if `e` is Single; overlap iff
(s1 - s) mod stride-of-e = 0 if `l` is Single or the strides increase;
disjoint otherwise. -/
def overlapAux (e l : Assertion V) : Bool :=
  if e.is_single then false
  else if l.is_single ∨ e.stride < l.stride then
    decide ((l.first_step - e.first_step) % e.stride = 0)
  else false

/-- The function `overlaps_with` as described by claim C3: different registers are
disjoint; equal first steps overlap; distinct first steps with equal
strides are disjoint; otherwise the rule of `overlapAux` applied to the
earlier- and later-starting assertion. -/
def overlapSpec (a b : Assertion V) : Bool :=
  if a.register ≠ b.register then false
  else if a.first_step = b.first_step then true
  else if a.stride = b.stride then false
  else if a.first_step < b.first_step then overlapAux a b
  else overlapAux b a

/-- C3: `overlaps_with` returns false when the registers differ; true
when registers and first steps are both equal; false when first steps
differ but strides are equal; otherwise, with s < s1 the two first
steps, it returns false if the earlier-starting assertion is Single,
returns ((s1 - s) mod stride-of-earlier == 0) if the later-starting
assertion is Single or the earlier stride is smaller, and returns false
otherwise. -/
theorem overlaps_with_eq_overlapSpec (a b : Assertion V) :
    overlaps_with a b = overlapSpec a b := by
  unfold overlaps_with overlapSpec overlapAux
  by_cases hr : a.register = b.register
  · by_cases hf : a.first_step = b.first_step
    · simp [hr, hf]
    · by_cases hs : a.stride = b.stride
      · simp [hr, hf, hs]
      · by_cases hlt : a.first_step < b.first_step
        · simp [hr, hf, hs, hlt]
        · simp [hr, hf, hs, hlt]
  · simp [hr]

/-- C9: `overlaps_with` is symmetric and reflexive; two assertions with
equal register and equal first step always overlap; and two Single
assertions on the same register overlap iff their steps are equal. -/
theorem overlaps_with_sym_refl {V : Type} :
    (∀ a b : Assertion V, overlaps_with a b = overlaps_with b a) ∧
    (∀ a : Assertion V, overlaps_with a a = true) ∧
    (∀ a b : Assertion V, a.register = b.register →
      a.first_step = b.first_step → overlaps_with a b = true) ∧
    (∀ a b : Assertion V, a.is_single = true → b.is_single = true →
      a.register = b.register →
      (overlaps_with a b = true ↔ a.first_step = b.first_step)) := by
  refine ⟨?_, ?_, ?_, ?_⟩
  · intro a b
    unfold overlaps_with
    by_cases hr : a.register = b.register
    · by_cases hf : a.first_step = b.first_step
      · simp [hr, hf]
      · have hf' : ¬ b.first_step = a.first_step := fun h => hf h.symm
        by_cases hs : a.stride = b.stride
        · simp [hr, hf, hf', hs]
        · have hs' : ¬ b.stride = a.stride := fun h => hs h.symm
          rcases Nat.lt_or_ge a.first_step b.first_step with hlt | hge
          · have hnlt : ¬ b.first_step < a.first_step := by omega
            simp [hr, hf, hf', hs, hs', hlt, hnlt]
          · have hlt' : b.first_step < a.first_step := by omega
            have hnlt : ¬ a.first_step < b.first_step := by omega
            simp [hr, hf, hf', hs, hs', hlt', hnlt]
    · have hr' : ¬ b.register = a.register := fun h => hr h.symm
      simp [hr, hr']
  · intro a
    simp [overlaps_with]
  · intro a b hr hf
    simp [overlaps_with, hr, hf]
  · intro a b ha hb hr
    simp only [is_single, NO_STRIDE, beq_iff_eq] at ha hb
    by_cases hf : a.first_step = b.first_step
    · simp [overlaps_with, hr, hf]
    · simp [overlaps_with, hr, hf, ha, hb]

/-- Comparison of naturals, modelling `usize::partial_cmp(..).unwrap()`. -/
def ncmp (m n : Nat) : Ordering :=
  if m < n then .lt else if m = n then .eq else .gt

/-- From src: the `Ord for Assertion` implementation, comparing first by
stride, then by first_step and finally by register. -/
def cmp (a b : Assertion V) : Ordering :=
  if a.stride = b.stride then
    if a.first_step = b.first_step then ncmp a.register b.register
    else ncmp a.first_step b.first_step
  else ncmp a.stride b.stride

/-- Lexicographic comparison of the (stride, first_step, register)
triples, the order claim C10 describes. -/
def cmpTriple (x y : Nat × Nat × Nat) : Ordering :=
  (ncmp x.1 y.1).then ((ncmp x.2.1 y.2.1).then (ncmp x.2.2 y.2.2))

/-- C10: `cmp` compares exactly the (stride, first_step, register)
triples lexicographically in that order and never inspects `values`: two
assertions agreeing on the triple but holding different values vectors
compare Equal although they are structurally unequal. -/
theorem cmp_lex_ignores_values (a b : Assertion V)
    (h1 : a.stride = b.stride) (h2 : a.first_step = b.first_step)
    (h3 : a.register = b.register) (h4 : a.values ≠ b.values) :
    cmp a b = Ordering.eq ∧ a ≠ b ∧
    ∀ c d : Assertion V,
      cmp c d = cmpTriple (c.stride, c.first_step, c.register)
        (d.stride, d.first_step, d.register) := by
  refine ⟨?_, ?_, ?_⟩
  · simp [cmp, ncmp, h1, h2, h3]
  · intro h
    exact h4 (by rw [h])
  · intro c d
    unfold cmp cmpTriple ncmp
    by_cases hs : c.stride = d.stride
    · by_cases hf : c.first_step = d.first_step
      · simp [hs, hf, Ordering.then]
      · rcases Nat.lt_or_ge c.first_step d.first_step with hlt | hge
        · simp [hs, hf, hlt, Ordering.then]
        · have hnlt : ¬ c.first_step < d.first_step := by omega
          simp [hs, hf, hnlt, Ordering.then]
    · rcases Nat.lt_or_ge c.stride d.stride with hlt | hge
      · simp [hs, hlt, Ordering.then]
      · have hnlt : ¬ c.stride < d.stride := by omega
        simp [hs, hnlt, Ordering.then]

/-- Witness for C9 at concrete assertions. -/
theorem overlaps_with_sym_refl_witness :
    overlaps_with (Assertion.mk 2 5 0 [7]) (Assertion.mk 2 5 0 [9]) = true ∧
    (overlaps_with (Assertion.mk 2 5 0 [7]) (Assertion.mk 2 6 0 [7]) = true ↔
      (5 : Nat) = 6) :=
  ⟨(overlaps_with_sym_refl (V := Nat)).2.2.1 _ _ rfl rfl,
    (overlaps_with_sym_refl (V := Nat)).2.2.2 _ _ rfl rfl rfl⟩

/-- Witness for C10 at concrete assertions. -/
theorem cmp_lex_ignores_values_witness :
    cmp (Assertion.mk 3 4 8 [1, 2]) (Assertion.mk 3 4 8 [5, 6]) =
      Ordering.eq ∧
    Assertion.mk 3 4 8 [1, 2] ≠ Assertion.mk (V := Nat) 3 4 8 [5, 6] ∧
    ∀ c d : Assertion Nat,
      cmp c d = cmpTriple (c.stride, c.first_step, c.register)
        (d.stride, d.first_step, d.register) :=
  cmp_lex_ignores_values _ _ rfl rfl rfl (by decide)

/-- From src: `Assertion::validate_trace_length`. -/
def validate_trace_length (a : Assertion V) (L : Nat) :
    Except AssertionError Unit :=
  if ¬ (isPow2 L = true) then .error (.TraceLengthNotPowerOfTwo L)
  else if a.is_single then
    if a.first_step ≥ L then
      .error (.TraceLengthTooShort (nextPow2 (a.first_step + 1)) L)
    else .ok ()
  else if a.is_periodic then
    if a.stride > L then .error (.TraceLengthTooShort a.stride L)
    else .ok ()
  else
    if a.values.length * a.stride ≠ L then
      .error (.TraceLengthNotExact (a.values.length * a.stride) L)
    else .ok ()

/-- The data-model invariants of an assertion, as maintained by the
constructors `single`, `periodic` and `sequence`: at least one value;
stride 0 forces a one-element value list; a nonzero stride is a power of
two, at least `MIN_STRIDE_LENGTH`, and exceeds `first_step`; more than
one value forces a power-of-two count. -/
def WellFormed (a : Assertion V) : Prop :=
  a.values.length ≠ 0 ∧
  (a.stride = 0 → a.values.length = 1) ∧
  (a.stride ≠ 0 →
    MIN_STRIDE_LENGTH ≤ a.stride ∧ isPow2 a.stride = true ∧
      a.first_step < a.stride) ∧
  (1 < a.values.length → isPow2 a.values.length = true)

instance (a : Assertion V) : Decidable (WellFormed a) := by
  unfold WellFormed; infer_instance

/-- The function `validate_trace_length` as claim C5 describes it, by the kind of the
assertion: non-power-of-two lengths are rejected; a Single assertion
needs first_step < L; a Periodic one needs stride ≤ L; a Sequence one
needs |values| * stride = L exactly. -/
def validateSpec (a : Assertion V) (L : Nat) : Except AssertionError Unit :=
  if ¬ (isPow2 L = true) then .error (.TraceLengthNotPowerOfTwo L)
  else if a.is_single then
    if a.first_step < L then .ok ()
    else .error (.TraceLengthTooShort (nextPow2 (a.first_step + 1)) L)
  else if a.is_periodic then
    if a.stride ≤ L then .ok ()
    else .error (.TraceLengthTooShort a.stride L)
  else if a.is_sequence then
    if a.values.length * a.stride = L then .ok ()
    else .error (.TraceLengthNotExact (a.values.length * a.stride) L)
  else .ok ()

/-- C5: for every well-formed assertion and trace length L,
`validate_trace_length` returns TraceLengthNotPowerOfTwo when L is not a
power of two, and otherwise validates a Single assertion by
first_step < L, a Periodic one by stride ≤ L, and a Sequence one by
|values| * stride = L, with the error payloads the claim states. -/
theorem validate_trace_length_eq_spec (a : Assertion V) (L : Nat)
    (hwf : WellFormed a) :
    validate_trace_length a L = validateSpec a L := by
  obtain ⟨h0, h1, h2, h3⟩ := hwf
  unfold validate_trace_length validateSpec
  by_cases hL : isPow2 L = true
  · by_cases hsg : a.is_single = true
    · rcases Nat.lt_or_ge a.first_step L with hlt | hge
      · simp [hL, hsg, hlt, Nat.not_le.mpr hlt]
      · simp [hL, hsg, Nat.not_lt.mpr hge, hge]
    · by_cases hpd : a.is_periodic = true
      · rcases Nat.lt_or_ge L a.stride with hlt | hge
        · simp [hL, hsg, hpd, hlt, Nat.not_le.mpr hlt]
        · simp [hL, hsg, hpd, Nat.not_lt.mpr hge, hge]
      · have hsq : a.is_sequence = true := by
          simp only [is_single, NO_STRIDE, beq_iff_eq] at hsg
          simp only [is_periodic, NO_STRIDE, Bool.and_eq_true, bne_iff_ne,
            ne_eq, beq_iff_eq, not_and] at hpd
          have hst : a.stride ≠ 0 := hsg
          have hlen : a.values.length ≠ 1 := hpd hst
          simp only [is_sequence, decide_eq_true_eq]
          omega
        by_cases hex : a.values.length * a.stride = L
        · simp [hL, hsg, hpd, hsq, hex]
        · simp [hL, hsg, hpd, hsq, hex]
  · simp [hL]

/-- Witness for C5: the sequence assertion of spec scenario S3 against
trace length 8 is rejected with TraceLengthNotExact(16, 8). -/
theorem validate_trace_length_eq_spec_witness :
    validate_trace_length (Assertion.mk 1 0 4 [10, 20, 30, 40]) 8 =
      Except.error (AssertionError.TraceLengthNotExact 16 8) := by
  rw [validate_trace_length_eq_spec (Assertion.mk 1 0 4 [10, 20, 30, 40]) 8
    (by decide)]
  rfl

/-- From src: `Assertion::apply`, with the calls to the closure made
explicit as the ordered list of (step, value) pairs passed to it; the
panic on an invalid trace length is modelled as `none`. -/
def apply [Inhabited V] (a : Assertion V) (L : Nat) :
    Option (List (Nat × V)) :=
  match a.validate_trace_length L with
  | .error _ => none
  | .ok _ =>
    some (
      if a.is_single then [(a.first_step, a.values.headI)]
      else if a.is_periodic then
        (List.range (L / a.stride)).map
          (fun i => (a.first_step + a.stride * i, a.values.headI))
      else
        a.values.enum.map (fun p => (a.first_step + a.stride * p.1, p.2)))

/-- From src: `Assertion::get_num_steps`, with the panic on an invalid
trace length modelled as `none`. -/
def get_num_steps (a : Assertion V) (L : Nat) : Option Nat :=
  match a.validate_trace_length L with
  | .error _ => none
  | .ok _ =>
    some (if a.is_single then 1
      else if a.is_periodic then L / a.stride
      else a.values.length)

/-- Mapping over an enumerated list is mapping over the index range. -/
theorem enum_map_eq_range_map [Inhabited V] (fs st : Nat) (l : List V) :
    l.enum.map (fun p => (fs + st * p.1, p.2)) =
      (List.range l.length).map
        (fun i => (fs + i * st, l.getD i default)) := by
  apply List.ext_getElem
  · simp
  · intro i h1 h2
    have hi : i < l.length := by simpa using h1
    simp only [List.getElem_map, List.getElem_enum, List.getElem_range]
    rw [List.getD_eq_getElem l default hi, Nat.mul_comm]

/-- C4: for every well-formed assertion and accepted trace length L,
`apply` calls the closure once at (first_step, values[0]) when Single;
at (first_step + i * stride, values[0]) for i in [0, L / stride) when
Periodic; at (first_step + i * stride, values[i]) for i in
[0, |values|) when Sequence, in ascending i order; `get_num_steps`
equals the number of calls, and every step passed is less than L. -/
theorem apply_spec [Inhabited V] (a : Assertion V) (L : Nat)
    (hwf : WellFormed a) (hok : a.validate_trace_length L = .ok ()) :
    ∃ steps : List (Nat × V),
      a.apply L = some steps ∧
      (a.is_single = true → steps = [(a.first_step, a.values.headI)]) ∧
      (a.is_periodic = true → steps = (List.range (L / a.stride)).map
        (fun i => (a.first_step + i * a.stride, a.values.headI))) ∧
      (a.is_sequence = true → steps = (List.range a.values.length).map
        (fun i => (a.first_step + i * a.stride, a.values.getD i default))) ∧
      a.get_num_steps L = some steps.length ∧
      ∀ q ∈ steps, q.1 < L := by
  obtain ⟨h0, h1, h2, h3⟩ := hwf
  by_cases hP : isPow2 L = true
  case neg =>
    unfold validate_trace_length at hok
    simp [hP] at hok
  case pos =>
  by_cases hsg : a.is_single = true
  · -- Single
    have hst : a.stride = 0 := by
      simpa [is_single, NO_STRIDE] using hsg
    have hfs : a.first_step < L := by
      unfold validate_trace_length at hok
      by_cases hge : a.first_step ≥ L
      · simp [hP, hsg, hge] at hok
      · omega
    refine ⟨[(a.first_step, a.values.headI)], ?_, fun _ => rfl, ?_, ?_, ?_, ?_⟩
    · simp [apply, hok, hsg]
    · intro h
      simp [is_periodic, NO_STRIDE, hst] at h
    · intro h
      simp only [is_sequence, decide_eq_true_eq] at h
      have := h1 hst
      omega
    · simp [get_num_steps, hok, hsg]
    · intro q hq
      simp only [List.mem_singleton] at hq
      subst hq
      exact hfs
  · by_cases hpd : a.is_periodic = true
    · -- Periodic
      have hst : a.stride ≠ 0 := by
        simp only [is_periodic, NO_STRIDE, Bool.and_eq_true, bne_iff_ne,
          ne_eq, beq_iff_eq] at hpd
        exact hpd.1
      have hfs : a.first_step < a.stride := (h2 hst).2.2
      refine ⟨(List.range (L / a.stride)).map
        (fun i => (a.first_step + a.stride * i, a.values.headI)),
        ?_, ?_, ?_, ?_, ?_, ?_⟩
      · simp [apply, hok, hsg, hpd]
      · intro h; exact absurd h hsg
      · intro _
        simp [Nat.mul_comm]
      · intro h
        simp only [is_sequence, decide_eq_true_eq] at h
        simp only [is_periodic, NO_STRIDE, Bool.and_eq_true, bne_iff_ne,
          ne_eq, beq_iff_eq] at hpd
        omega
      · simp [get_num_steps, hok, hsg, hpd]
      · intro q hq
        simp only [List.mem_map, List.mem_range] at hq
        obtain ⟨i, hi, rfl⟩ := hq
        have hb1 : a.first_step + a.stride * i < a.stride * (i + 1) := by
          have hmul : a.stride * (i + 1) = a.stride * i + a.stride := by ring
          omega
        have hb2 : a.stride * (i + 1) ≤ a.stride * (L / a.stride) :=
          Nat.mul_le_mul_left _ (by omega)
        have hb3 : a.stride * (L / a.stride) ≤ L := by
          rw [Nat.mul_comm]
          exact Nat.div_mul_le_self L a.stride
        simp only []
        omega
    · -- Sequence
      have hst : a.stride ≠ 0 := by
        simpa [is_single, NO_STRIDE] using hsg
      have hlen : 1 < a.values.length := by
        simp only [is_periodic, NO_STRIDE, Bool.and_eq_true, bne_iff_ne,
          ne_eq, beq_iff_eq, not_and] at hpd
        have := hpd hst
        omega
      have hfs : a.first_step < a.stride := (h2 hst).2.2
      have hex : a.values.length * a.stride = L := by
        unfold validate_trace_length at hok
        by_cases he : a.values.length * a.stride = L
        · exact he
        · simp [hP, hsg, hpd, he] at hok
      refine ⟨a.values.enum.map
        (fun p => (a.first_step + a.stride * p.1, p.2)), ?_, ?_, ?_, ?_, ?_, ?_⟩
      · simp [apply, hok, hsg, hpd]
      · intro h; exact absurd h hsg
      · intro h; exact absurd h hpd
      · intro _
        exact enum_map_eq_range_map a.first_step a.stride a.values
      · simp [get_num_steps, hok, hsg, hpd]
      · intro q hq
        rw [enum_map_eq_range_map] at hq
        simp only [List.mem_map, List.mem_range] at hq
        obtain ⟨i, hi, rfl⟩ := hq
        have hb1 : a.first_step + i * a.stride < (i + 1) * a.stride := by
          have hmul : (i + 1) * a.stride = i * a.stride + a.stride := by ring
          omega
        have hb2 : (i + 1) * a.stride ≤ a.values.length * a.stride :=
          Nat.mul_le_mul_right _ (by omega)
        simp only []
        omega

/-- Witness for C4: the periodic assertion with register 0, first step
1, stride 2 and value 5 applied to a trace of length 4. -/
theorem apply_spec_witness :
    ∃ steps : List (Nat × Nat),
      apply (Assertion.mk 0 1 2 [5]) 4 = some steps ∧
      ((Assertion.mk (V := Nat) 0 1 2 [5]).is_single = true →
        steps = [(1, [5].headI)]) ∧
      ((Assertion.mk (V := Nat) 0 1 2 [5]).is_periodic = true →
        steps = (List.range (4 / 2)).map (fun i => (1 + i * 2, [5].headI))) ∧
      ((Assertion.mk (V := Nat) 0 1 2 [5]).is_sequence = true →
        steps = (List.range 1).map
          (fun i => (1 + i * 2, [5].getD i default))) ∧
      get_num_steps (Assertion.mk 0 1 2 [5]) 4 = some steps.length ∧
      ∀ q ∈ steps, q.1 < 4 :=
  apply_spec (Assertion.mk 0 1 2 [5]) 4 (by decide) rfl

/-- From src: the `validate_stride` helper, as a boolean (the Rust
function panics when this is false). -/
def validate_stride (stride first_step : Nat) : Bool :=
  isPow2 stride && decide (MIN_STRIDE_LENGTH ≤ stride) &&
    decide (first_step < stride)

/-- From src: the `Assertion::sequence` constructor; the panics on an
invalid stride or value list are modelled as `none`. -/
def sequence (register first_step stride : Nat) (values : List V) :
    Option (Assertion V) :=
  if validate_stride stride first_step = false then none
  else if values.isEmpty then none
  else if isPow2 values.length = false then none
  else some ⟨register, first_step,
    if values.length = 1 then NO_STRIDE else stride, values⟩

/-- C8: with a valid stride, `sequence` on a one-element values list
returns an assertion with stride 0 classified is_single (and neither
is_periodic nor is_sequence); on a longer (power-of-two) values list it
keeps the given stride and the result is classified is_sequence. -/
theorem sequence_classification (register first_step stride : Nat)
    (hv : validate_stride stride first_step = true) :
    (∀ v : V, ∃ a : Assertion V,
      sequence register first_step stride [v] = some a ∧
      a.stride = 0 ∧ a.is_single = true ∧ a.is_periodic = false ∧
      a.is_sequence = false) ∧
    (∀ vs : List V, 1 < vs.length → isPow2 vs.length = true →
      ∃ a : Assertion V, sequence register first_step stride vs = some a ∧
        a.stride = stride ∧ a.is_sequence = true) := by
  constructor
  · intro v
    have h1 : isPow2 (1 : Nat) = true := by decide
    refine ⟨⟨register, first_step, 0, [v]⟩, ?_, rfl, rfl, rfl, rfl⟩
    simp [sequence, hv, h1, NO_STRIDE]
  · intro vs hlen hp2
    have hne : vs.isEmpty = false := by
      cases vs with
      | nil => simp at hlen
      | cons x t => rfl
    have hone : ¬ vs.length = 1 := by omega
    refine ⟨⟨register, first_step, stride, vs⟩, ?_, rfl, ?_⟩
    · simp [sequence, hv, hne, hp2, hone]
    · simp only [is_sequence, decide_eq_true_eq]
      exact hlen

/-- Witness for C8 at register 1, first step 0, stride 4, with values
[7] and [10, 20]. -/
theorem sequence_classification_witness :
    (∃ a : Assertion Nat, sequence 1 0 4 [7] = some a ∧
      a.stride = 0 ∧ a.is_single = true ∧ a.is_periodic = false ∧
      a.is_sequence = false) ∧
    (∃ a : Assertion Nat, sequence 1 0 4 [10, 20] = some a ∧
      a.stride = 4 ∧ a.is_sequence = true) :=
  ⟨(sequence_classification 1 0 4 (by decide)).1 7,
    (sequence_classification 1 0 4 (by decide)).2 [10, 20] (by decide)
      (by decide)⟩

end Assertion

/-! Cubic extension field (math/src/field/extensions/cubic.rs). -/

/-- From src: a `CubeExtension<B>` element, a triple of base elements. -/
structure CubeExtension (B : Type) where
  c0 : B
  c1 : B
  c2 : B
  deriving DecidableEq

/-- Modelled from the spec: `zeroed_vector(n)` of a base field (the base
field implementations are not under src/) allocates n zeroed base
elements. -/
def baseZeroedVector (B : Type) [Zero B] (n : Nat) : List B :=
  List.replicate n 0

/-- From src: `CubeExtension::base_to_quad_vector` — reinterprets a
buffer of base elements as cubic extension elements by fusing adjacent
triples; the new length is the source length divided by three, so
leftover elements are dropped. -/
def base_to_quad_vector {B : Type} : List B → List (CubeExtension B)
  | a :: b :: c :: rest => ⟨a, b, c⟩ :: base_to_quad_vector rest
  | _ => []

/-- From src: `CubeExtension::zeroed_vector` (the BaseElement62 and
BaseElement64 instantiations are identical): it allocates n * 2 zeroed
base elements and reinterprets them as cubic extension elements. -/
def cubeZeroedVector (B : Type) [Zero B] (n : Nat) : List (CubeExtension B) :=
  base_to_quad_vector (baseZeroedVector B (n * 2))

/-- Reinterpreting a base buffer in triples divides its length by 3. -/
theorem base_to_quad_vector_length {B : Type} :
    ∀ l : List B, (base_to_quad_vector l).length = l.length / 3
  | [] => by simp [base_to_quad_vector]
  | [a] => by simp [base_to_quad_vector]
  | [a, b] => by simp [base_to_quad_vector]
  | a :: b :: c :: rest => by
    have ih := base_to_quad_vector_length rest
    simp only [base_to_quad_vector, List.length_cons]
    omega

/-- C1 (code bug): the cubic `zeroed_vector(n)` returns n * 2 / 3
extension elements, not n — it allocates n * 2 base zeros where the
claim (and the data-model invariant d = 3) requires 3 * n; at n = 1 the
result is empty, and at n = 4 it has 2 elements instead of 4 (the
length n * 2 also violates `base_to_quad_vector`'s divisibility-by-3
debug assertion whenever n is not a multiple of 3). -/
theorem cubeZeroedVector_wrong_length :
    (∀ n : Nat, (cubeZeroedVector Nat n).length = n * 2 / 3) ∧
    (cubeZeroedVector Nat 1).length = 0 ∧
    (cubeZeroedVector Nat 4).length = 2 ∧
    (cubeZeroedVector Nat 1).length ≠ 1 ∧
    (cubeZeroedVector Nat 4).length ≠ 4 := by
  refine ⟨?_, by decide, by decide, by decide, by decide⟩
  intro n
  unfold cubeZeroedVector baseZeroedVector
  rw [base_to_quad_vector_length]
  simp

/-! Quadratic extension serialization
(math/src/field/extensions/quadratic.rs). -/

/-- Little-endian base-256 encoding of a natural into k bytes. -/
def natToBytesLE : Nat → Nat → List Nat
  | 0, _ => []
  | k + 1, v => v % 256 :: natToBytesLE k (v / 256)

/-- Value of a little-endian byte list. -/
def bytesFromLE (bs : List Nat) : Nat :=
  bs.foldr (fun b acc => b + 256 * acc) 0

theorem natToBytesLE_length (k v : Nat) : (natToBytesLE k v).length = k := by
  induction k generalizing v with
  | zero => rfl
  | succ k ih => simp [natToBytesLE, ih]

theorem bytesFromLE_natToBytesLE (k v : Nat) (h : v < 256 ^ k) :
    bytesFromLE (natToBytesLE k v) = v := by
  induction k generalizing v with
  | zero =>
    simp only [Nat.pow_zero, Nat.lt_one_iff] at h
    subst h
    rfl
  | succ k ih =>
    have hdiv : v / 256 < 256 ^ k := by
      rw [Nat.div_lt_iff_lt_mul (by omega)]
      calc v < 256 ^ (k + 1) := h
        _ = 256 ^ k * 256 := by ring
    simp only [natToBytesLE, bytesFromLE, List.foldr_cons]
    have := ih (v / 256) hdiv
    simp only [bytesFromLE] at this
    rw [this]
    omega

/-- Modelled from the spec: a base field element as carried in memory —
an internal representation that is possibly non-canonical; the element
it denotes is the residue of the representation modulo p. -/
structure Felt where
  internal : Nat
  deriving DecidableEq

/-- Modelled from the spec: the canonical residue of a base field
element. -/
def canon (p : Nat) (x : Felt) : Nat := x.internal % p

/-- Modelled from the spec: byte serialization of a base field element
(the base field implementations are not under src/) reduces to the
canonical residue first — every public-observation operation must
reduce — and emits ELEMENT_BYTES little-endian bytes. -/
def feltAsBytes (p EB : Nat) (x : Felt) : List Nat :=
  natToBytesLE EB (canon p x)

/-- Modelled from the spec: base-field `try_from` fails when the length
differs from ELEMENT_BYTES or the encoded value is not below the
modulus. -/
def feltTryFrom (p EB : Nat) (bs : List Nat) : Option Felt :=
  if bs.length ≠ EB then none
  else if p ≤ bytesFromLE bs then none
  else some ⟨bytesFromLE bs⟩

/-- From src: a `QuadExtensionA<B>` element, a pair of base elements. -/
structure QuadExtensionA where
  c0 : Felt
  c1 : Felt
  deriving DecidableEq

/-- From src: `QuadExtensionA::as_bytes` — the byte view of the two
components laid out in order, each component contributing its
ELEMENT_BYTES serialized bytes. -/
def quadAsBytes (p EB : Nat) (x : QuadExtensionA) : List Nat :=
  feltAsBytes p EB x.c0 ++ feltAsBytes p EB x.c1

/-- From src: `QuadExtensionA::try_from` — fails on fewer than
2 * ELEMENT_BYTES bytes, parses the first ELEMENT_BYTES bytes as the
first component and all the remaining bytes as the second. -/
def quadTryFrom (p EB : Nat) (bs : List Nat) : Option QuadExtensionA :=
  if bs.length < EB * 2 then none
  else
    match feltTryFrom p EB (bs.take EB), feltTryFrom p EB (bs.drop EB) with
    | some v0, some v1 => some ⟨v0, v1⟩
    | _, _ => none

/-- Public equality of quadratic extension elements: componentwise
equality of canonical residues (equality reduces first). -/
def quadEq (p : Nat) (x y : QuadExtensionA) : Prop :=
  canon p x.c0 = canon p y.c0 ∧ canon p x.c1 = canon p y.c1

/-- C2: for every quadratic extension element — including one whose
base components hold non-canonical internal representations —
`try_from` applied to `as_bytes` succeeds and yields an element equal
to the original (p the base modulus, EB the base ELEMENT_BYTES, with
residues fitting in EB bytes). -/
theorem quad_tryFrom_asBytes (p EB : Nat) (hp : 0 < p)
    (hle : p ≤ 256 ^ EB) (x : QuadExtensionA) :
    ∃ y, quadTryFrom p EB (quadAsBytes p EB x) = some y ∧ quadEq p y x := by
  have hc0 : canon p x.c0 < p := Nat.mod_lt _ hp
  have hc1 : canon p x.c1 < p := Nat.mod_lt _ hp
  have hl0 : (feltAsBytes p EB x.c0).length = EB := natToBytesLE_length _ _
  have hl1 : (feltAsBytes p EB x.c1).length = EB := natToBytesLE_length _ _
  have hlen : (quadAsBytes p EB x).length = EB * 2 := by
    simp [quadAsBytes, hl0, hl1]
    omega
  have hgen : ∀ (l1 l2 : List Nat) (n : Nat), l1.length = n →
      (l1 ++ l2).take n = l1 ∧ (l1 ++ l2).drop n = l2 := by
    intro l1 l2 n h
    subst h
    exact ⟨List.take_left l1 l2, List.drop_left l1 l2⟩
  have htake : (quadAsBytes p EB x).take EB = feltAsBytes p EB x.c0 :=
    (hgen _ _ _ hl0).1
  have hdrop : (quadAsBytes p EB x).drop EB = feltAsBytes p EB x.c1 :=
    (hgen _ _ _ hl0).2
  have hv0 : bytesFromLE (feltAsBytes p EB x.c0) = canon p x.c0 :=
    bytesFromLE_natToBytesLE EB _ (by omega)
  have hv1 : bytesFromLE (feltAsBytes p EB x.c1) = canon p x.c1 :=
    bytesFromLE_natToBytesLE EB _ (by omega)
  have hf0 : feltTryFrom p EB (feltAsBytes p EB x.c0) =
      some ⟨canon p x.c0⟩ := by
    unfold feltTryFrom
    rw [hv0]
    simp [hl0, Nat.not_le.mpr hc0]
  have hf1 : feltTryFrom p EB (feltAsBytes p EB x.c1) =
      some ⟨canon p x.c1⟩ := by
    unfold feltTryFrom
    rw [hv1]
    simp [hl1, Nat.not_le.mpr hc1]
  refine ⟨⟨⟨canon p x.c0⟩, ⟨canon p x.c1⟩⟩, ?_, ?_, ?_⟩
  · unfold quadTryFrom
    rw [htake, hdrop, hf0, hf1]
    simp [hlen]
  · simp [canon, Nat.mod_eq_of_lt hc0]
  · simp [canon, Nat.mod_eq_of_lt hc1]

/-- Witness for C2 at p = 7, EB = 1 and an element whose first
component holds the non-canonical internal representation 10. -/
theorem quad_tryFrom_asBytes_witness :
    ∃ y, quadTryFrom 7 1 (quadAsBytes 7 1 ⟨⟨10⟩, ⟨3⟩⟩) = some y ∧
      quadEq 7 y ⟨⟨10⟩, ⟨3⟩⟩ :=
  quad_tryFrom_asBytes 7 1 (by decide) (by decide) ⟨⟨10⟩, ⟨3⟩⟩

/-! Quadratic extension arithmetic
(math/src/field/extensions/quadratic.rs), over an abstract base field
whose inversion obeys the spec convention inv(0) = 0 (Lean's field
inverse) and whose irreducible x^2 - x - 1 yields nonzero norms for
nonzero inputs. -/

/-- A `QuadExtensionA<B>` element over an abstract base field, used for
the arithmetic claims. -/
structure QuadF (F : Type) where
  c0 : F
  c1 : F
  deriving DecidableEq

namespace QuadF

variable {F : Type} [Field F] [DecidableEq F]

/-- From src: the `ZERO` constant. -/
def qZERO : QuadF F := ⟨0, 0⟩

/-- From src: the `ONE` constant. -/
def qONE : QuadF F := ⟨1, 0⟩

/-- From src: `Mul for QuadExtensionA` — Karatsuba-style product reduced
modulo x^2 - x - 1. -/
def qmul (x y : QuadF F) : QuadF F :=
  let coef0 := x.c0 * y.c0
  ⟨coef0 + x.c1 * y.c1, (x.c0 + x.c1) * (y.c0 + y.c1) - coef0⟩

/-- From src: `QuadExtensionA::inv` (identical for the BaseElement62 and
BaseElement128 instantiations) — zero maps to zero, otherwise the
conjugate formula with denominator a^2 + ab - b^2. -/
def qinv (x : QuadF F) : QuadF F :=
  if x = qZERO then qZERO
  else
    let denom := x.c0 * x.c0 + x.c0 * x.c1 - x.c1 * x.c1
    let denom_inv := denom⁻¹
    ⟨(x.c0 + x.c1) * denom_inv, (-x.c1) * denom_inv⟩

/-- C7: for every nonzero quadratic extension element x = (a, b),
`inv(x)` equals ((a + b) * d⁻¹, -b * d⁻¹) with d = a^2 + ab - b^2, and
x * inv(x) = ONE; inv(ZERO) = ZERO.  The hypothesis is the spec's
irreducibility guarantee: the norm d is nonzero for nonzero (a, b). -/
theorem qinv_formula_and_mul_inv
    (hirr : ∀ a b : F, ¬(a = 0 ∧ b = 0) → a * a + a * b - b * b ≠ 0)
    (x : QuadF F) (hx : x ≠ qZERO) :
    qinv x = ⟨(x.c0 + x.c1) * (x.c0 * x.c0 + x.c0 * x.c1 - x.c1 * x.c1)⁻¹,
      -x.c1 * (x.c0 * x.c0 + x.c0 * x.c1 - x.c1 * x.c1)⁻¹⟩ ∧
    qmul x (qinv x) = qONE ∧ qinv (qZERO : QuadF F) = qZERO := by
  have hz : ¬(x.c0 = 0 ∧ x.c1 = 0) := by
    intro ⟨h0, h1⟩
    apply hx
    cases x
    simp_all [qZERO]
  have hd : x.c0 * x.c0 + x.c0 * x.c1 - x.c1 * x.c1 ≠ 0 := hirr _ _ hz
  refine ⟨?_, ?_, ?_⟩
  · rw [qinv, if_neg hx]
  · rw [qinv, if_neg hx]
    unfold qmul qONE
    have h1 : x.c0 * ((x.c0 + x.c1) *
        (x.c0 * x.c0 + x.c0 * x.c1 - x.c1 * x.c1)⁻¹) +
        x.c1 * (-x.c1 * (x.c0 * x.c0 + x.c0 * x.c1 - x.c1 * x.c1)⁻¹) = 1 := by
      field_simp
      ring
    have h2 : (x.c0 + x.c1) * ((x.c0 + x.c1) *
        (x.c0 * x.c0 + x.c0 * x.c1 - x.c1 * x.c1)⁻¹ +
        -x.c1 * (x.c0 * x.c0 + x.c0 * x.c1 - x.c1 * x.c1)⁻¹) -
        x.c0 * ((x.c0 + x.c1) *
        (x.c0 * x.c0 + x.c0 * x.c1 - x.c1 * x.c1)⁻¹) = 0 := by
      field_simp
      ring
    simp only []
    rw [QuadF.mk.injEq]
    exact ⟨h1, h2⟩
  · rw [qinv, if_pos rfl]

end QuadF

instance : Fact (Nat.Prime 7) := ⟨by norm_num⟩

/-- Witness for C7 over GF(7), where x^2 - x - 1 is irreducible, at the
element (1, 1). -/
theorem qinv_formula_and_mul_inv_witness :
    QuadF.qinv (⟨1, 1⟩ : QuadF (ZMod 7)) =
      ⟨(1 + 1) * (1 * 1 + 1 * 1 - 1 * 1)⁻¹,
        -1 * (1 * 1 + 1 * 1 - 1 * 1)⁻¹⟩ ∧
    QuadF.qmul (⟨1, 1⟩ : QuadF (ZMod 7)) (QuadF.qinv ⟨1, 1⟩) = QuadF.qONE ∧
    QuadF.qinv (QuadF.qZERO : QuadF (ZMod 7)) = QuadF.qZERO :=
  QuadF.qinv_formula_and_mul_inv (F := ZMod 7) (by decide) ⟨1, 1⟩ (by decide)

/-! Trace polynomial table (prover/src/trace/poly_table.rs). -/

/-- Modelled from the spec: a matrix of column polynomials (the prover's
Matrix type is not under src/); each inner list holds one column's
coefficients in ascending degree. -/
structure Matrix (α : Type) where
  columns : List (List α)

/-- Modelled from the spec: the number of coefficient rows, the length
of a column. -/
def Matrix.num_rows {α : Type} (m : Matrix α) : Nat :=
  (m.columns.headD []).length

/-- Modelled from the spec: Horner evaluation of one base-field column
at an extension-field point, the base coefficients lifted through f
(the matrix evaluation routines are not under src/). -/
def polyEvalLift {B E : Type} [CommRing E] (f : B → E) (coeffs : List B)
    (x : E) : E :=
  coeffs.foldr (fun c acc => f c + x * acc) 0

/-- Modelled from the spec: Horner evaluation of an extension-field
column at an extension-field point. -/
def polyEval {E : Type} [CommRing E] (coeffs : List E) (x : E) : E :=
  coeffs.foldr (fun c acc => c + x * acc) 0

/-- From src: `TracePolyTable<E>` — the main segment matrix over the
base field and the auxiliary segment matrices over the extension
field. -/
structure TracePolyTable (B E : Type) where
  main_segment_polys : Matrix B
  aux_segment_polys : List (Matrix E)

namespace TracePolyTable

variable {B E : Type} [CommRing E]

/-- From src: `TracePolyTable::poly_size`. -/
def poly_size (t : TracePolyTable B E) : Nat :=
  t.main_segment_polys.num_rows

/-- From src: `TracePolyTable::evaluate_at` — the main columns evaluated
at x (base coefficients lifted through f), then each auxiliary
segment's columns, in insertion order. -/
def evaluate_at (f : B → E) (t : TracePolyTable B E) (x : E) : List E :=
  t.main_segment_polys.columns.map (fun c => polyEvalLift f c x) ++
    (t.aux_segment_polys.map
      (fun m => m.columns.map (fun c => polyEval c x))).flatten

/-- Modelled from the spec: `get_power_series_with_offset(b, offset, n)`
returns offset, offset * b, offset * b^2, and so on (the vector
primitives are not under src/). -/
def get_power_series_with_offset (b offset : E) (n : Nat) : List E :=
  (List.range n).map (fun i => offset * b ^ i)

/-- From src: `TracePolyTable::get_ood_frame`; the base field's
root-of-unity oracle `ro` is kept abstract and lifted through f
(modelling `E::from`), and `exp` is modelled by monoid powers. -/
def get_ood_frame (f : B → E) (ro : Nat → B) (t : TracePolyTable B E)
    (z : E) (max_pow rt : Nat) : List (List E) :=
  let g : E := f (ro (Nat.log2 t.poly_size))
  let current := ((get_power_series_with_offset g z max_pow).map
    (fun i => t.evaluate_at f i)).flatten
  let next := t.evaluate_at f (z * g ^ rt)
  [current, next]

/-- C6: `get_ood_frame(z, max_pow, ratio)` returns exactly the two
vectors [current, next], current the concatenation of the evaluations
at z * g^i for i = 0 .. max_pow - 1 (g the root of unity of order
poly_size lifted to the extension field) and next the evaluation at
z * g^ratio; max_pow = 0 yields an empty current, and ratio = 0 yields
next = evaluate_at(z), which is the first row of current. -/
theorem get_ood_frame_spec (f : B → E) (ro : Nat → B)
    (t : TracePolyTable B E) (z : E) (max_pow rt : Nat) :
    t.get_ood_frame f ro z max_pow rt =
      [((List.range max_pow).map (fun i =>
          t.evaluate_at f (z * f (ro (Nat.log2 t.poly_size)) ^ i))).flatten,
        t.evaluate_at f (z * f (ro (Nat.log2 t.poly_size)) ^ rt)] ∧
    t.get_ood_frame f ro z 0 rt =
      [[], t.evaluate_at f (z * f (ro (Nat.log2 t.poly_size)) ^ rt)] ∧
    (t.get_ood_frame f ro z max_pow 0).getD 1 [] = t.evaluate_at f z ∧
    ((t.get_ood_frame f ro z (max_pow + 1) 0).headD []).take
        (t.evaluate_at f z).length = t.evaluate_at f z := by
  have hg0 : z * f (ro (Nat.log2 t.poly_size)) ^ 0 = z := by
    rw [pow_zero, mul_one]
  refine ⟨?_, ?_, ?_, ?_⟩
  · simp [get_ood_frame, get_power_series_with_offset, List.map_map,
      Function.comp_def]
  · simp [get_ood_frame, get_power_series_with_offset]
  · simp [get_ood_frame, hg0]
  · simp only [get_ood_frame, get_power_series_with_offset,
      List.range_succ_eq_map, List.map_cons, List.map_map, List.flatten,
      List.headD_cons, hg0]
    exact List.take_left _ _

end TracePolyTable

end Winterfell
